import Mathlib

/-!
Verification of the diffusion-model utilities of the repository
(src/diffusion_models/utils.py and src/diffusion_models/diffusion.py)
against its natural-language specification.

The source operates on torch tensors; the shallow embedding models a
1-D tensor as a `List` over a linear ordered field (`ℚ` where the source
arithmetic is rational, `ℝ` where square roots or exponentials appear),
a 2-D tensor as a `List (List _)` of rows, and every random draw
(`torch.randn`, `torch.randint`, `torch.multinomial`) as an explicit
parameter supplying the drawn values.
-/

/-- Embedding of `torch.linspace(s, e, n)`: `n` evenly spaced points from
`s` to `e` inclusive; a single point is `s`; zero points is empty. -/
def linspace {α : Type*} [LinearOrderedField α] (s e : α) (n : ℕ) : List α :=
  (List.range n).map
    (fun (i : ℕ) => if n ≤ 1 then s else s + (e - s) * (i : α) / ((n : α) - 1))

/-- Embedding of `torch.sigmoid`: `1 / (1 + exp (-x))`. -/
noncomputable def sigmoid (x : ℝ) : ℝ := 1 / (1 + Real.exp (-x))

/-- Embedding of `make_beta_schedule` (utils.py lines 12-22).
Dispatches on the literal schedule string exactly as the source does:
`"quad"` interpolates between `start ** 0.5` and `end ** 0.5` and squares,
`"sigmoid"` rescales a sigmoid over `[-6, 6]`, and every other string falls
into the default linear branch. -/
noncomputable def make_beta_schedule (schedule : String) (n_timesteps : ℕ)
    (s e : ℝ) : List ℝ :=
  if schedule = "quad" then
    (linspace (Real.sqrt s) (Real.sqrt e) n_timesteps).map (fun b => b ^ 2)
  else if schedule = "sigmoid" then
    (linspace (-6) 6 n_timesteps).map (fun b => sigmoid b * (e - s) + s)
  else
    linspace s e n_timesteps

/-- Modelled from the spec: the quadratic schedule as the spec words it,
"linearly interpolating in square-root space between sqrt(start) and
sqrt(end) over T points and then squaring". -/
noncomputable def quadraticScheduleSpec (n : ℕ) (s e : ℝ) : List ℝ :=
  (linspace (Real.sqrt s) (Real.sqrt e) n).map (fun b => b ^ 2)

/-- Modelled from the spec: "'sigmoid' returns a sigmoid curve rescaled to
[start,end]" (over the source's fixed `[-6, 6]` input grid). -/
noncomputable def sigmoidScheduleSpec (n : ℕ) (s e : ℝ) : List ℝ :=
  (linspace (-6) 6 n).map (fun b => sigmoid b * (e - s) + s)

/-- Modelled from the spec: "'linear' a direct linear interpolation". -/
noncomputable def linearScheduleSpec (n : ℕ) (s e : ℝ) : List ℝ :=
  linspace s e n

/-- Embedding of `make_beta_schedule` with torch's step-count check made
explicit: `torch.linspace` raises only when the number of steps is
negative; the source itself performs no validation of any argument. -/
noncomputable def make_beta_schedule_checked (schedule : String) (n : ℤ)
    (s e : ℝ) : Option (List ℝ) :=
  if n < 0 then none else some (make_beta_schedule schedule n.toNat s e)

/-- Embedding of `torch.cumprod` along dimension 0. -/
def cumprod {α : Type*} [LinearOrderedField α] : List α → List α
  | [] => []
  | a :: rest => a :: (cumprod rest).map (fun x => a * x)

/-- The fields of the `Diffusion` class (diffusion.py lines 23-54) that are
rational: the linear beta schedule with the constructor's hard-coded
endpoints `1e-5` and `0.5e-2`, the alphas, and their cumulative product.
The square-root fields are derived below over `ℝ`. -/
structure Diffusion where
  num_steps : ℕ
  betas : List ℚ
  alphas : List ℚ
  alphas_prod : List ℚ

/-- Embedding of `Diffusion.__init__(num_steps)`: it builds
`make_beta_schedule('linear', num_steps, 1e-5, 0.5e-2)`, `alphas = 1 - betas`
and `alphas_prod = cumprod(alphas)`, with no validation of `num_steps`. -/
def mkDiffusion (numSteps : ℕ) : Diffusion :=
  let betas : List ℚ := linspace (1 / 100000) (1 / 200) numSteps
  let alphas := betas.map (fun b => 1 - b)
  { num_steps := numSteps
    betas := betas
    alphas := alphas
    alphas_prod := cumprod alphas }

/-- The `Diffusion` field `one_minus_alphas_bar_sqrt = torch.sqrt(1 - alphas_prod)`
(diffusion.py line 44), elementwise over `ℝ`. -/
noncomputable def one_minus_alphas_bar_sqrt (d : Diffusion) : List ℝ :=
  d.alphas_prod.map (fun (a : ℚ) => Real.sqrt (1 - (a : ℝ)))

/-- The `Diffusion` field `alphas_bar_sqrt = torch.sqrt(alphas_prod)`
(diffusion.py line 42), elementwise over `ℝ`. -/
noncomputable def alphas_bar_sqrt (d : Diffusion) : List ℝ :=
  d.alphas_prod.map (fun (a : ℚ) => Real.sqrt (a : ℝ))

/-- The rational linear schedule coerced to `ℝ` coincides with the real
schedule the constructor computes, so the `ℚ` layer is faithful. -/
theorem mkDiffusion_betas_cast (T : ℕ) :
    ((mkDiffusion T).betas).map (fun (q : ℚ) => (q : ℝ)) =
      make_beta_schedule "linear" T (1 / 100000) (1 / 200) := by
  rw [show (mkDiffusion T).betas = linspace (1 / 100000 : ℚ) (1 / 200) T from rfl,
    show make_beta_schedule "linear" T (1 / 100000) (1 / 200) =
      linspace (1 / 100000 : ℝ) (1 / 200) T from rfl,
    linspace, linspace, List.map_map]
  refine List.map_congr_left (fun i _ => ?_)
  simp only [Function.comp_apply]
  split_ifs
  · norm_num
  · push_cast
    ring

/-- Number of points `torch.linspace` produces. -/
theorem linspace_length {α : Type*} [LinearOrderedField α] (s e : α) (n : ℕ) :
    (linspace s e n).length = n := by
  simp [linspace]

/-- C3 counterexample: the schedule kind named `"quadratic"` does not select
the sqrt-space interpolation — the source tests the literal `"quad"`, so
`"quadratic"` falls into the default linear branch, which differs from the
sqrt-space schedule at the middle of a 3-point schedule from 1/16 to 9/16
(5/16 versus 1/4). -/
theorem make_beta_schedule_quadratic_string_ne_spec :
    make_beta_schedule "quadratic" 3 (1 / 16) (9 / 16) ≠
      quadraticScheduleSpec 3 (1 / 16) (9 / 16) := by
  have hs1 : Real.sqrt (1 / 16) = 1 / 4 := by
    rw [show (1 / 16 : ℝ) = (1 / 4) ^ 2 by norm_num, Real.sqrt_sq (by norm_num)]
  have hs2 : Real.sqrt (9 / 16) = 3 / 4 := by
    rw [show (9 / 16 : ℝ) = (3 / 4) ^ 2 by norm_num, Real.sqrt_sq (by norm_num)]
  have hL : make_beta_schedule "quadratic" 3 (1 / 16) (9 / 16) =
      [1 / 16, 5 / 16, 9 / 16] := by
    show linspace (1 / 16 : ℝ) (9 / 16) 3 = _
    norm_num [linspace, List.range_succ]
  have hR : quadraticScheduleSpec 3 (1 / 16) (9 / 16) = [1 / 16, 1 / 4, 9 / 16] := by
    unfold quadraticScheduleSpec
    rw [hs1, hs2]
    norm_num [linspace, List.range_succ]
  intro h
  rw [hL, hR] at h
  norm_num at h

/-- C3 (amended): the sqrt-space quadratic schedule is selected by the
literal kind string `"quad"`; `"sigmoid"` yields the rescaled sigmoid curve
and `"linear"` (like any other string) the direct linear interpolation,
each agreeing with the schedule the spec describes. -/
theorem make_beta_schedule_branches (T : ℕ) (s e : ℝ) :
    make_beta_schedule "quad" T s e = quadraticScheduleSpec T s e ∧
    make_beta_schedule "sigmoid" T s e = sigmoidScheduleSpec T s e ∧
    make_beta_schedule "linear" T s e = linearScheduleSpec T s e :=
  ⟨rfl, rfl, rfl⟩

/-- C8 counterexample: with `T = 0` (so `T ≤ 0`) and `start = 5`, `end = 7`
(both outside `(0,1)`), schedule construction returns an (empty) schedule
instead of surfacing a configuration error. -/
theorem make_beta_schedule_no_validation_at_bad_input :
    make_beta_schedule_checked "linear" 0 5 7 = some [] := rfl

/-- C8 (amended): schedule construction performs no validation of its
inputs — it fails only when the step count is negative (a check made by
`torch.linspace` itself, not by the source), and `Diffusion.__init__`
likewise constructs a schedule of exactly `num_steps` betas for every
`num_steps`, with no range check on the hard-coded endpoints. -/
theorem make_beta_schedule_checked_none_iff (schedule : String) (n : ℤ)
    (s e : ℝ) :
    (make_beta_schedule_checked schedule n s e = none ↔ n < 0) ∧
    ∀ T : ℕ, ((mkDiffusion T).betas).length = T := by
  constructor
  · unfold make_beta_schedule_checked
    split_ifs with h
    · simp [h]
    · simp [h]
  · intro T
    show (linspace (1 / 100000 : ℚ) (1 / 200) T).length = T
    exact linspace_length _ _ _

/-- Column sums `data.sum(dim=0)` of a 2-D tensor. -/
def col_sums {α : Type*} [LinearOrderedField α] : List (List α) → List α
  | [] => []
  | [r] => r
  | r :: s :: rest => List.zipWith (· + ·) r (col_sums (s :: rest))

/-- Embedding of `get_probs` (utils.py lines 272-284): per-class counts over
the batch divided by the grand total. -/
def get_probs {α : Type*} [LinearOrderedField α] (data : List (List α)) : List α :=
  (col_sums data).map (fun s => s / (col_sums data).sum)

/-- Embedding of `extract_cat` (utils.py lines 252-255): gather the schedule
values at the per-row timesteps (the source's reshape only arranges
broadcasting, realised here by the per-row formulas). -/
def extract_cat {α : Type*} [LinearOrderedField α] (a : List α) (t : List ℕ) :
    List α :=
  t.map (fun ti => a.getD ti 0)

/-- The pre-resampling probabilities of `q_x_cat` (utils.py lines 243-246):
`x_t_probs = cumprod_alpha * probs + cumprod_1_minus_alpha / k`, one row per
entry of `t`.  The source passes `diffs.alphas_prod` for `cumprod_alpha`
and `diffs.one_minus_alphas_bar_sqrt` (which is `sqrt(1 - alphas_prod)`)
for `cumprod_1_minus_alpha`; both arrive here as explicit lists. -/
def x_t_probs {α : Type*} [LinearOrderedField α] (alphasProdL oneMinusL : List α)
    (x0 : List (List α)) (t : List ℕ) (k : ℕ) : List (List α) :=
  List.zipWith
    (fun ca c1 => (get_probs x0).map (fun p => ca * p + c1 / (k : α)))
    (extract_cat alphasProdL t) (extract_cat oneMinusL t)

/-- Embedding of `resample` (utils.py lines 263-269): `torch.multinomial`
drawing one sample per row, modelled by inverse-CDF selection against an
explicit draw `u` from `[0, total weight)`. -/
def resample {α : Type*} [LinearOrderedField α] : List α → α → ℕ
  | [], _ => 0
  | p :: rest, u => if u < p then 0 else resample rest (u - p) + 1

/-- Embedding of `torch.nn.functional.one_hot(j, k)` for a single index. -/
def one_hot {α : Type*} [LinearOrderedField α] (j k : ℕ) : List α :=
  (List.range k).map (fun i => if i = j then 1 else 0)

/-- Embedding of `q_x_cat` (utils.py lines 230-249): build `x_t_probs`,
resample a class per row, and one-hot encode the result.  The gathered
schedule tensors and the per-row multinomial draws are explicit inputs. -/
def q_x_cat {α : Type*} [LinearOrderedField α] (alphasProdL oneMinusL : List α)
    (x0 : List (List α)) (t : List ℕ) (k : ℕ) (us : List α) : List (List α) :=
  List.zipWith (fun dist u => one_hot (resample dist u) k)
    (x_t_probs alphasProdL oneMinusL x0 t k) us

/-- Inverse-CDF selection lands inside the support whenever the draw is
below the total weight. -/
theorem resample_lt_length {α : Type*} [LinearOrderedField α]
    (dist : List α) (u : α) (h0 : 0 ≤ u) (hs : u < dist.sum) :
    resample dist u < dist.length := by
  induction dist generalizing u with
  | nil => simp at hs; exact absurd (lt_of_le_of_lt h0 hs) (lt_irrefl 0)
  | cons p rest ih =>
    simp only [resample]
    split_ifs with h
    · simp
    · push_neg at h
      have h1 : 0 ≤ u - p := sub_nonneg.mpr h
      have h2 : u - p < rest.sum := by
        simp only [List.sum_cons] at hs
        linarith
      simpa using ih (u - p) h1 h2

/-- Every element of a `zipWith` comes from a zipped pair. -/
theorem mem_zipWith_exists {β γ δ : Type*} {f : β → γ → δ} {bs : List β}
    {cs : List γ} {d : δ} (h : d ∈ List.zipWith f bs cs) :
    ∃ p ∈ List.zip bs cs, d = f p.1 p.2 := by
  induction bs generalizing cs with
  | nil => simp at h
  | cons b bs ih =>
    cases cs with
    | nil => simp at h
    | cons c cs =>
      simp only [List.zipWith_cons_cons, List.mem_cons] at h
      rcases h with h | h
      · exact ⟨(b, c), by simp, h⟩
      · obtain ⟨p, hp, hd⟩ := ih h
        exact ⟨p, by simp [hp], hd⟩

/-- With equal-length rows, the column-sum vector keeps the row width. -/
theorem col_sums_length {α : Type*} [LinearOrderedField α]
    {data : List (List α)} {k : ℕ} (h : ∀ r ∈ data, r.length = k)
    (hne : data ≠ []) : (col_sums data).length = k := by
  induction data with
  | nil => exact absurd rfl hne
  | cons r rest ih =>
    cases rest with
    | nil => simpa using h r (by simp)
    | cons s rest2 =>
      have hr : r.length = k := h r (by simp)
      have hrest : (col_sums (s :: rest2)).length = k := by
        refine ih (fun q hq => h q (by simp [hq])) (by simp)
      simp [col_sums, hr, hrest]

/-- C10: for every input batch `x0` of length-`k` rows, every timestep
vector `t`, every class count `k ≥ 1`, and every valid multinomial draw,
each row `q_x_cat` returns is an exact one-hot vector of length `k` —
a single entry 1 and all others 0 — at every timestep, because the
resampled class index always lands below `k`. -/
theorem q_x_cat_rows_one_hot {α : Type*} [LinearOrderedField α]
    (alphasProdL oneMinusL : List α) (x0 : List (List α)) (t : List ℕ)
    (k : ℕ) (us : List α)
    (hx0 : ∀ r ∈ x0, r.length = k)
    (hu : ∀ p ∈ List.zip (x_t_probs alphasProdL oneMinusL x0 t k) us,
      0 ≤ p.2 ∧ p.2 < p.1.sum) :
    ∀ row ∈ q_x_cat alphasProdL oneMinusL x0 t k us,
      ∃ j, j < k ∧ row = one_hot (α := α) j k := by
  intro row hrow
  obtain ⟨⟨dist, u⟩, hmem, hrow⟩ := mem_zipWith_exists hrow
  obtain ⟨hu0, hus⟩ := hu _ hmem
  have hdist : dist ∈ x_t_probs alphasProdL oneMinusL x0 t k :=
    (List.of_mem_zip hmem).1
  have hdlen : dist.length = (get_probs x0).length := by
    obtain ⟨q, _, hq⟩ := mem_zipWith_exists hdist
    simp [hq]
  have hx0ne : x0 ≠ [] := by
    intro hnil
    have : dist.length = 0 := by simp [hdlen, get_probs, hnil, col_sums]
    have hd0 : dist = [] := List.eq_nil_of_length_eq_zero this
    rw [hd0] at hus
    simp at hus
    exact absurd (lt_of_le_of_lt hu0 hus) (lt_irrefl 0)
  have hklen : dist.length = k := by
    rw [hdlen, get_probs, List.length_map]
    exact col_sums_length hx0 hx0ne
  refine ⟨resample dist u, ?_, ?_⟩
  · rw [← hklen]
    exact resample_lt_length dist u hu0 hus
  · simp [hrow]

/-- Witness for C10: the first output row of a concrete `q_x_cat` call on
the batch `[[1,0],[0,1]]` with two classes, coefficients 1/2 and draws 0
and 1/2 is an exact one-hot vector. -/
theorem q_x_cat_rows_one_hot_witness :
    ∃ j, j < 2 ∧ ([(1 : ℚ), 0] : List ℚ) = one_hot (α := ℚ) j 2 := by
  have hx : x_t_probs (α := ℚ) [1/2] [1/2] [[1, 0], [0, 1]] [0, 0] 2 =
      [[1/2, 1/2], [1/2, 1/2]] := by
    norm_num [x_t_probs, get_probs, col_sums, extract_cat]
  have hq : q_x_cat (α := ℚ) [1/2] [1/2] [[1, 0], [0, 1]] [0, 0] 2 [0, 1/2] =
      [[1, 0], [0, 1]] := by
    simp only [q_x_cat, hx]
    norm_num [resample, one_hot, List.range_succ]
  exact q_x_cat_rows_one_hot [1/2] [1/2] [[1, 0], [0, 1]] [0, 0] 2 [0, 1/2]
    (by norm_num) (by rw [hx]; norm_num [List.zip_cons_cons]) [1, 0]
    (by rw [hq]; simp)

/-- The head case of `one_hot`: class 0 of `k + 1` classes. -/
theorem one_hot_zero_succ {α : Type*} [LinearOrderedField α] (k : ℕ) :
    one_hot (α := α) 0 (k + 1) = 1 :: List.replicate k 0 := by
  simp [one_hot, List.range_succ_eq_map, List.map_map, Function.comp_def]

/-- The tail case of `one_hot`: class `j + 1` of `k + 1` classes. -/
theorem one_hot_succ_succ {α : Type*} [LinearOrderedField α] (j k : ℕ) :
    one_hot (α := α) (j + 1) (k + 1) = 0 :: one_hot (α := α) j k := by
  rw [one_hot, one_hot, List.range_succ_eq_map, List.map_cons, List.map_map]
  refine List.cons_eq_cons.mpr ⟨by simp, ?_⟩
  exact List.map_congr_left (fun i _ => by simp [Function.comp_def])

/-- A one-hot vector over a valid class index sums to one. -/
theorem one_hot_sum {α : Type*} [LinearOrderedField α] {j k : ℕ} (h : j < k) :
    (one_hot (α := α) j k).sum = 1 := by
  induction k generalizing j with
  | zero => omega
  | succ k ih =>
    cases j with
    | zero => simp [one_hot_zero_succ]
    | succ j => simp [one_hot_succ_succ, ih (Nat.lt_of_succ_lt_succ h)]

/-- Resampling from a point-mass (one-hot) distribution always returns the
supported class, for any draw in `[0, 1)`. -/
theorem resample_one_hot {α : Type*} [LinearOrderedField α] {j k : ℕ}
    (h : j < k) {u : α} (h0 : 0 ≤ u) (h1 : u < 1) :
    resample (one_hot (α := α) j k) u = j := by
  induction j generalizing k u with
  | zero =>
    cases k with
    | zero => omega
    | succ k => simp [one_hot_zero_succ, resample, h1]
  | succ j ih =>
    cases k with
    | zero => omega
    | succ k =>
      rw [one_hot_succ_succ]
      simp only [resample]
      rw [if_neg (not_lt.mpr h0), sub_zero,
        ih (Nat.lt_of_succ_lt_succ h) h0 h1]

/-- Pointwise sum of a list with a scalar multiple of itself. -/
theorem zipWith_add_map_mul {α : Type*} [LinearOrderedField α] (c : α)
    (v : List α) :
    List.zipWith (· + ·) v (v.map (fun x => c * x)) =
      v.map (fun x => (1 + c) * x) := by
  induction v with
  | nil => rfl
  | cons a v ih =>
    simp only [List.map_cons, List.zipWith_cons_cons, ih, List.cons.injEq,
      and_true]
    try ring

/-- Column sums of `N` identical rows scale the row by `N`. -/
theorem col_sums_replicate {α : Type*} [LinearOrderedField α] (N : ℕ)
    (v : List α) (hN : 0 < N) :
    col_sums (List.replicate N v) = v.map (fun x => (N : α) * x) := by
  induction N with
  | zero => omega
  | succ N ih =>
    cases N with
    | zero =>
      simp only [List.replicate_succ, List.replicate_zero, col_sums]
      refine Eq.symm (Eq.trans (List.map_congr_left (fun x _ => ?_))
        (List.map_id v))
      show ((0 + 1 : ℕ) : α) * x = id x
      simp
    | succ M =>
      have ih2 := ih (Nat.succ_pos M)
      rw [List.replicate_succ,
        show List.replicate (M + 1) v = v :: List.replicate M v from rfl]
      simp only [col_sums]
      rw [show (v :: List.replicate M v) = List.replicate (M + 1) v from rfl,
        ih2, zipWith_add_map_mul]
      refine List.map_congr_left (fun x _ => ?_)
      push_cast
      ring

/-- The empirical class distribution of a constant one-hot batch is that
one-hot vector itself. -/
theorem get_probs_replicate_one_hot {α : Type*} [LinearOrderedField α]
    {N j k : ℕ} (hN : 0 < N) (hj : j < k) :
    get_probs (List.replicate N (one_hot (α := α) j k)) =
      one_hot (α := α) j k := by
  unfold get_probs
  rw [col_sums_replicate N _ hN]
  have hNne : ((N : α)) ≠ 0 := Nat.cast_ne_zero.mpr hN.ne'
  have hsum : ((one_hot (α := α) j k).map (fun x => (N : α) * x)).sum
      = (N : α) := by
    rw [List.sum_map_mul_left]
    simp [one_hot_sum hj]
  rw [hsum, List.map_map]
  refine Eq.trans (List.map_congr_left (fun x _ => ?_)) (List.map_id _)
  show ((N : α) * x) / (N : α) = id x
  field_simp

/-- Zipping a constant list on the left maps the remainder of the other. -/
theorem zipWith_replicate_left {β γ δ : Type*} (f : β → γ → δ) (n : ℕ)
    (b : β) (l : List γ) :
    List.zipWith f (List.replicate n b) l = (l.take n).map (f b) := by
  induction n generalizing l with
  | zero => simp
  | succ n ih => cases l <;> simp [List.replicate_succ, ih]

/-- C2 counterexample: at `t = 0` with the cumulative alpha product forced
to exactly 1 (so the code's noise coefficient `sqrt(1 - 1) = 0` vanishes),
`q_x_cat` does not return `x0` row for row.  The pre-resampling row
distribution is the batch-empirical `probs = [1/2, 1/2]` of the two-row
batch `[[1,0],[0,1]]`, not the row's own one-hot, so the draw 3/5 sends
both rows to class 1 and row 0 changes from `[1,0]` to `[0,1]`. -/
theorem q_x_cat_alpha_bar_one_not_identity :
    q_x_cat (α := ℚ) [1] [0] [[1, 0], [0, 1]] [0, 0] 2 [3/5, 3/5] =
      [[0, 1], [0, 1]] ∧
    q_x_cat (α := ℚ) [1] [0] [[1, 0], [0, 1]] [0, 0] 2 [3/5, 3/5] ≠
      [[1, 0], [0, 1]] := by
  have hx : x_t_probs (α := ℚ) [1] [0] [[1, 0], [0, 1]] [0, 0] 2 =
      [[1/2, 1/2], [1/2, 1/2]] := by
    norm_num [x_t_probs, get_probs, col_sums, extract_cat]
  have hr : resample (α := ℚ) [1/2, 1/2] (3/5) = 1 := by
    norm_num [resample]
  have h : q_x_cat (α := ℚ) [1] [0] [[1, 0], [0, 1]] [0, 0] 2 [3/5, 3/5] =
      [[0, 1], [0, 1]] := by
    simp only [q_x_cat, hx]
    norm_num [hr, one_hot, List.range_succ]
  refine ⟨h, ?_⟩
  rw [h]
  norm_num

/-- C2 (amended): at `t = 0` with the cumulative alpha product forced to
exactly 1 (noise coefficient `sqrt(1-1) = 0`), each pre-resampling row of
`q_x_cat` equals the batch-empirical class distribution `get_probs x0` —
not the row's own one-hot — so each output row is a fresh categorical
sample from that distribution; `x0` is returned unchanged exactly in the
constant-batch case, where every row is the same one-hot vector. -/
theorem q_x_cat_alpha_bar_one_behavior {α : Type*} [LinearOrderedField α]
    (x0 : List (List α)) (N j k : ℕ) (us : List α)
    (hj : j < k) (hN : 0 < N) (hus : us.length = N)
    (hu : ∀ u ∈ us, 0 ≤ u ∧ u < 1) :
    x_t_probs (α := α) [1] [0] x0 (List.replicate N 0) k =
      List.replicate N (get_probs x0) ∧
    q_x_cat (α := α) [1] [0] (List.replicate N (one_hot (α := α) j k))
      (List.replicate N 0) k us = List.replicate N (one_hot (α := α) j k) := by
  have hbase : ∀ y0 : List (List α),
      x_t_probs (α := α) [1] [0] y0 (List.replicate N 0) k =
        List.replicate N (get_probs y0) := by
    intro y0
    unfold x_t_probs extract_cat
    rw [List.map_replicate, List.map_replicate]
    simp only [List.getD_cons_zero]
    rw [zipWith_replicate_left, List.take_replicate, min_self,
      List.map_replicate]
    refine congrArg _ ?_
    refine Eq.trans (List.map_congr_left (fun p _ => ?_)) (List.map_id _)
    show 1 * p + 0 / (k : α) = id p
    simp
  refine ⟨hbase x0, ?_⟩
  unfold q_x_cat
  rw [hbase _, get_probs_replicate_one_hot hN hj, zipWith_replicate_left,
    ← hus, List.take_length]
  have : ∀ u ∈ us, one_hot (α := α) (resample (one_hot (α := α) j k) u) k =
      one_hot (α := α) j k := by
    intro u hmem
    rw [resample_one_hot hj (hu u hmem).1 (hu u hmem).2]
  rw [List.map_congr_left this, List.map_const', hus]

/-- Witness for the amended C2 at a concrete two-row constant batch with
two classes and draws 1/3 and 2/3. -/
theorem q_x_cat_alpha_bar_one_behavior_witness :
    x_t_probs (α := ℚ) [1] [0] [[1, 0], [0, 1]] (List.replicate 2 0) 2 =
      List.replicate 2 (get_probs (α := ℚ) [[1, 0], [0, 1]]) ∧
    q_x_cat (α := ℚ) [1] [0] (List.replicate 2 (one_hot (α := ℚ) 0 2))
      (List.replicate 2 0) 2 [1/3, 2/3] =
      List.replicate 2 (one_hot (α := ℚ) 0 2) :=
  q_x_cat_alpha_bar_one_behavior [[1, 0], [0, 1]] 2 0 2 [1/3, 2/3]
    (by norm_num) (by norm_num) (by norm_num) (by norm_num)

/-- C1: evaluation of `q_x_cat`'s pre-resampling probabilities at the
failing input `Diffusion(num_steps=1)`, `x0 = [[1,0]]` (`k = 2`, `probs`
sums to 1), `t = [0]`.  The source passes `diffs.one_minus_alphas_bar_sqrt`
— that is `sqrt(1 - alpha_bar)` — as the uniform-mix coefficient, so the
row of `x_t_probs` sums to `alpha_bar_0 + sqrt(1 - alpha_bar_0)
= 99999/100000 + sqrt(1/100000)`, which is not 1; the claimed formula
`alpha_bar*probs + (1-alpha_bar)/k` would have made it sum to 1. -/
theorem q_x_cat_x_t_probs_row_sum_not_one :
    ((x_t_probs ((mkDiffusion 1).alphas_prod.map (fun (q : ℚ) => (q : ℝ)))
        (one_minus_alphas_bar_sqrt (mkDiffusion 1))
        [[1, 0]] [0] 2).getD 0 []).sum =
      99999 / 100000 + Real.sqrt (1 / 100000) ∧
    (99999 / 100000 + Real.sqrt (1 / 100000) : ℝ) ≠ 1 ∧
    (get_probs [[(1 : ℝ), 0]]).sum = 1 := by
  have hap : (mkDiffusion 1).alphas_prod = [99999 / 100000] := by
    show cumprod ((linspace (1 / 100000 : ℚ) (1 / 200) 1).map (fun b => 1 - b))
      = _
    norm_num [linspace, List.range_succ, cumprod]
  have hcast : ((mkDiffusion 1).alphas_prod.map (fun (q : ℚ) => (q : ℝ))) =
      [99999 / 100000] := by
    rw [hap]
    norm_num
  have hone : one_minus_alphas_bar_sqrt (mkDiffusion 1) =
      [Real.sqrt (1 / 100000)] := by
    rw [one_minus_alphas_bar_sqrt, hap]
    norm_num
  have hprobs : get_probs [[(1 : ℝ), 0]] = [1, 0] := by
    norm_num [get_probs, col_sums]
  refine ⟨?_, ?_, ?_⟩
  · rw [hcast, hone]
    simp only [x_t_probs, extract_cat, List.map_cons, List.map_nil,
      List.getD_cons_zero, List.zipWith_cons_cons, List.zipWith_nil_right,
      hprobs]
    simp only [List.getD_cons_zero, List.sum_cons, List.sum_nil]
    push_cast
    ring
  · intro h
    have h2 : Real.sqrt (1 / 100000) = 1 / 100000 := by linarith
    have h3 := Real.sq_sqrt (show (0 : ℝ) ≤ 1 / 100000 by norm_num)
    rw [h2] at h3
    norm_num at h3
  · rw [hprobs]
    norm_num

/-- A dimension-1 slice `row[s:e]` of a row tensor. -/
def sliceRange {α : Type*} (row : List α) (s e : ℕ) : List α :=
  (row.drop s).take (e - s)

/-- Embedding of `torch.nn.functional.normalize(v, p=1, dim=1)` on one row
slice: division by `max(l1-norm, eps)` with torch's `eps = 1e-12`. -/
def l1_normalize {α : Type*} [LinearOrderedField α] (v : List α) : List α :=
  v.map (fun x => x / max ((v.map (fun y => |y|)).sum) (1 / 10 ^ 12))

/-- The unnormalized `theta` of `categorical_noise_estimation_loss`
(utils.py lines 189-209): per row `r` with timestep `t_r`,
`theta[r][j] = (alpha[t_r] * batch_x_t[r][j] + (1 - alpha[t_r]) / k) *
(alphas_prod[t_r - 1] * x0[r][j] + (1 - alphas_prod[t_r - 1]) / k)`,
where `t_r - 1` clamps at 0 exactly as `t_1[t_1 == -1] = 0` does. -/
def theta_unnormalized {α : Type*} [LinearOrderedField α]
    (alphasL alphasProdL : List α) (t : List ℕ) (batch_x_t x0 : List (List α))
    (k : ℕ) : List (List α) :=
  List.zipWith
    (fun tr rows =>
      List.zipWith
        (fun b x =>
          (alphasL.getD tr 0 * b + (1 - alphasL.getD tr 0) / (k : α)) *
          (alphasProdL.getD (tr - 1) 0 * x +
            (1 - alphasProdL.getD (tr - 1) 0) / (k : α)))
        rows.1 rows.2)
    t (batch_x_t.zip x0)

/-- The per-feature L1 normalization of `theta` (utils.py lines 211-215):
each feature slice of each row is normalized and the slices are
re-concatenated along dimension 1. -/
def theta_normalized {α : Type*} [LinearOrderedField α]
    (alphasL alphasProdL : List α) (t : List ℕ) (batch_x_t x0 : List (List α))
    (k : ℕ) (fi : List (ℕ × ℕ)) : List (List α) :=
  (theta_unnormalized alphasL alphasProdL t batch_x_t x0 k).map
    (fun row =>
      (fi.map (fun p => l1_normalize (sliceRange row p.1 p.2))).flatten)

/-- Slice elements are elements of the row. -/
theorem mem_of_mem_sliceRange {α : Type*} {row : List α} {s e : ℕ} {y : α}
    (h : y ∈ sliceRange row s e) : y ∈ row :=
  List.mem_of_mem_drop (List.mem_of_mem_take h)

/-- A slice with `s < e` starting inside the row is nonempty. -/
theorem sliceRange_ne_nil {α : Type*} {row : List α} {s e : ℕ}
    (hse : s < e) (hs : s < row.length) : sliceRange row s e ≠ [] := by
  have : 0 < (sliceRange row s e).length := by
    rw [sliceRange, List.length_take, List.length_drop]
    omega
  exact List.ne_nil_of_length_pos this

/-- Sum of an elementwise division. -/
theorem sum_map_div {α : Type*} [LinearOrderedField α] (v : List α) (c : α) :
    (v.map (fun x => x / c)).sum = v.sum / c := by
  induction v with
  | nil => simp
  | cons a v ih => simp [ih, add_div]

/-- An L1-normalized list of nonnegative entries whose sum is at least the
torch epsilon floor sums to exactly 1. -/
theorem l1_normalize_sum {α : Type*} [LinearOrderedField α] {v : List α}
    (hpos : ∀ x ∈ v, 0 ≤ x) (hfloor : (1 / 10 ^ 12 : α) ≤ v.sum) :
    (l1_normalize v).sum = 1 := by
  have habs : (v.map (fun y => |y|)).sum = v.sum := by
    rw [Eq.trans (List.map_congr_left (fun y hy => abs_of_nonneg (hpos y hy)))
      (List.map_id v)]
  have hvpos : (0 : α) < v.sum := lt_of_lt_of_le (by positivity) hfloor
  have hmax : max ((v.map (fun y => |y|)).sum) (1 / 10 ^ 12 : α) = v.sum := by
    rw [habs]
    exact max_eq_left hfloor
  rw [l1_normalize, hmax, sum_map_div]
  field_simp

/-- C4: inside `categorical_noise_estimation_loss`, after the per-feature
L1 normalization step every feature's slice of every row of `theta` sums
to 1, for arbitrary nonnegative batch content, whenever the gathered
schedule values lie in `[0,1]`, the feature ranges are nonempty and within
the row width `k`, and the uniform-mix floor `(1-alpha)(1-alphas_prod)`
clears torch's normalization epsilon `1e-12` times `k^2` (so no slice's
mass can be flushed to the epsilon clamp). -/
theorem theta_feature_slices_sum_to_one {α : Type*} [LinearOrderedField α]
    (alphasL alphasProdL : List α) (t : List ℕ) (batch_x_t x0 : List (List α))
    (k : ℕ) (fi : List (ℕ × ℕ))
    (hb : ∀ r ∈ batch_x_t, ∀ x ∈ r, 0 ≤ x)
    (hx : ∀ r ∈ x0, ∀ x ∈ r, 0 ≤ x)
    (hble : ∀ r ∈ batch_x_t, r.length = k)
    (hxle : ∀ r ∈ x0, r.length = k)
    (ha : ∀ i : ℕ, 0 ≤ alphasL.getD i 0 ∧ alphasL.getD i 0 ≤ 1)
    (hap : ∀ i : ℕ, 0 ≤ alphasProdL.getD i 0 ∧ alphasProdL.getD i 0 ≤ 1)
    (hfloor : ∀ i j : ℕ, (1 / 10 ^ 12 : α) * (k : α) ^ 2 ≤
      (1 - alphasL.getD i 0) * (1 - alphasProdL.getD j 0))
    (hfi : ∀ p ∈ fi, p.1 < p.2 ∧ p.2 ≤ k)
    (hk : 0 < k) :
    ∀ row ∈ theta_unnormalized alphasL alphasProdL t batch_x_t x0 k,
      ∀ p ∈ fi, (l1_normalize (sliceRange row p.1 p.2)).sum = 1 := by
  intro row hrow p hp
  obtain ⟨⟨tr, br, xr⟩, hmem, hroweq⟩ := mem_zipWith_exists hrow
  have hbr : br ∈ batch_x_t := (List.of_mem_zip (List.of_mem_zip hmem).2).1
  have hxr : xr ∈ x0 := (List.of_mem_zip (List.of_mem_zip hmem).2).2
  have hkpos : (0 : α) < (k : α) := by exact_mod_cast hk
  set a := alphasL.getD tr 0 with hadef
  set ap := alphasProdL.getD (tr - 1) 0 with hapdef
  have ha1 : 0 ≤ a := (ha tr).1
  have ha2 : a ≤ 1 := (ha tr).2
  have hap1 : 0 ≤ ap := (hap (tr - 1)).1
  have hap2 : ap ≤ 1 := (hap (tr - 1)).2
  have heps : (1 / 10 ^ 12 : α) ≤ ((1 - a) / k) * ((1 - ap) / k) := by
    have h1 := hfloor tr (tr - 1)
    rw [div_mul_div_comm]
    rw [le_div_iff₀ (by positivity)]
    calc (1 / 10 ^ 12 : α) * ((k : α) * (k : α))
        = (1 / 10 ^ 12 : α) * (k : α) ^ 2 := by ring
      _ ≤ (1 - a) * (1 - ap) := h1
  -- every entry of the row is at least the epsilon product
  have hentry : ∀ z ∈ row, ((1 - a) / k) * ((1 - ap) / k) ≤ z := by
    intro z hz
    rw [hroweq] at hz
    obtain ⟨⟨b, x⟩, hbx, hzeq⟩ := mem_zipWith_exists hz
    have hb0 : 0 ≤ b := hb br hbr b (List.of_mem_zip hbx).1
    have hx0 : 0 ≤ x := hx xr hxr x (List.of_mem_zip hbx).2
    rw [hzeq]
    have hf1 : (1 - a) / (k : α) ≤ a * b + (1 - a) / k :=
      le_add_of_nonneg_left (mul_nonneg ha1 hb0)
    have hf2 : (1 - ap) / (k : α) ≤ ap * x + (1 - ap) / k :=
      le_add_of_nonneg_left (mul_nonneg hap1 hx0)
    have hn1 : (0 : α) ≤ (1 - a) / k := by
      apply div_nonneg (by linarith) (le_of_lt hkpos)
    have hn2 : (0 : α) ≤ (1 - ap) / k := by
      apply div_nonneg (by linarith) (le_of_lt hkpos)
    exact mul_le_mul hf1 hf2 hn2 (le_trans hn1 hf1)
  have hrowlen : row.length = k := by
    rw [hroweq, List.length_zipWith, hble br hbr, hxle xr hxr, min_self]
  obtain ⟨hse, hek⟩ := hfi p hp
  have hslice_ne : sliceRange row p.1 p.2 ≠ [] :=
    sliceRange_ne_nil hse (by omega)
  have hslice_nonneg : ∀ z ∈ sliceRange row p.1 p.2, 0 ≤ z := by
    intro z hz
    have := hentry z (mem_of_mem_sliceRange hz)
    have hnn : (0 : α) ≤ ((1 - a) / k) * ((1 - ap) / k) :=
      le_trans (by positivity) heps
    linarith
  have hslice_sum : (1 / 10 ^ 12 : α) ≤ (sliceRange row p.1 p.2).sum := by
    obtain ⟨z, hz⟩ := List.exists_mem_of_ne_nil _ hslice_ne
    have h1 : z ≤ (sliceRange row p.1 p.2).sum :=
      List.single_le_sum hslice_nonneg z hz
    have h2 := hentry z (mem_of_mem_sliceRange hz)
    linarith
  exact l1_normalize_sum hslice_nonneg hslice_sum

/-- Witness for C4: the single theta row `[3/16, 3/16]` produced by a
concrete one-row batch with two classes, one feature range `(0,2)` and
schedule values 1/2 normalizes to sum 1. -/
theorem theta_feature_slices_sum_to_one_witness :
    (l1_normalize (sliceRange [(3/16 : ℚ), 3/16] 0 2)).sum = 1 := by
  have ht : theta_unnormalized (α := ℚ) [1/2] [1/2] [0] [[1, 0]] [[0, 1]] 2 =
      [[3/16, 3/16]] := by
    norm_num [theta_unnormalized, List.zip_cons_cons]
  exact theta_feature_slices_sum_to_one [1/2] [1/2] [0] [[1, 0]] [[0, 1]] 2
    [(0, 2)]
    (by norm_num) (by norm_num) (by norm_num) (by norm_num)
    (by intro i; cases i <;> norm_num)
    (by intro i; cases i <;> norm_num)
    (by intro i j; cases i <;> cases j <;> norm_num)
    (by norm_num) (by norm_num) [3/16, 3/16] (by rw [ht]; simp) (0, 2)
    (by simp)

/-- The per-row timestep vector built identically in
`continuous_noise_estimation_loss` (utils.py lines 146-148) and
`categorical_noise_estimation_loss` (lines 185-187):
`t = torch.randint(0, n_steps, size=(batch_size // 2 + 1,))` — modelled by
taking the first `batch_size / 2 + 1` draws from the supplied stream —
then `t = torch.cat([t, n_steps - t - 1])[:batch_size]`. -/
def loss_timesteps (samples : List ℕ) (batch_size n_steps : ℕ) : List ℕ :=
  ((samples.take (batch_size / 2 + 1)) ++
    (samples.take (batch_size / 2 + 1)).map (fun x => n_steps - x - 1)).take
    batch_size

/-- Modelled from the spec: the identical mirror-concatenate-truncate
construction but drawing `⌈N/2⌉` fresh timesteps, as the claim words it. -/
def loss_timesteps_spec (samples : List ℕ) (batch_size n_steps : ℕ) :
    List ℕ :=
  ((samples.take ((batch_size + 1) / 2)) ++
    (samples.take ((batch_size + 1) / 2)).map (fun x => n_steps - x - 1)).take
    batch_size

/-- C7 counterexample: the loss estimators draw `N // 2 + 1` fresh
timesteps, not `⌈N/2⌉`.  For `N = 2`, `T = 10` and the draw stream
`[0, 0]` the code's vector is `[0, 0]` (two fresh draws, no mirrored
entry survives truncation), while the claimed construction draws one
timestep and mirrors it, giving `[0, 9]`. -/
theorem loss_timesteps_ne_spec :
    loss_timesteps [0, 0] 2 10 = [0, 0] ∧
    loss_timesteps_spec [0, 0] 2 10 = [0, 9] ∧
    loss_timesteps [0, 0] 2 10 ≠ loss_timesteps_spec [0, 0] 2 10 := by
  decide

/-- C7 (amended): the loss estimators build the timestep vector by drawing
`N/2 + 1` (floor division, not `⌈N/2⌉`) timesteps uniformly from `[0,T)`,
mirroring each draw to `T-1-t`, concatenating, and truncating to length
`N`; the result has length `N`, every entry lies in `[0,T)`, and entry `j`
is the `j`-th fresh draw when `j < N/2 + 1` and the mirror of draw
`j - (N/2 + 1)` otherwise. -/
theorem loss_timesteps_shape (samples : List ℕ) (N T : ℕ)
    (hs : ∀ s ∈ samples, s < T)
    (hlen : N / 2 + 1 ≤ samples.length)
    (hT : 0 < T) :
    (loss_timesteps samples N T).length = N ∧
    (∀ x ∈ loss_timesteps samples N T, x < T) ∧
    (∀ j : ℕ, j < N →
      (loss_timesteps samples N T)[j]? =
        if j < N / 2 + 1 then samples[j]?
        else (samples[j - (N / 2 + 1)]?).map (fun s => T - s - 1)) := by
  have htlen : (samples.take (N / 2 + 1)).length = N / 2 + 1 := by
    rw [List.length_take]
    omega
  have hcatlen : ((samples.take (N / 2 + 1)) ++
      (samples.take (N / 2 + 1)).map (fun x => T - x - 1)).length =
      2 * (N / 2 + 1) := by
    rw [List.length_append, List.length_map, htlen]
    omega
  refine ⟨?_, ?_, ?_⟩
  · rw [loss_timesteps, List.length_take, hcatlen]
    omega
  · intro x hx
    have hx2 := List.mem_of_mem_take hx
    rcases List.mem_append.mp hx2 with h | h
    · exact hs x (List.mem_of_mem_take h)
    · obtain ⟨s, _, hsx⟩ := List.mem_map.mp h
      omega
  · intro j hj
    rw [loss_timesteps, List.getElem?_take, if_pos hj]
    by_cases hcase : j < N / 2 + 1
    · rw [if_pos hcase, List.getElem?_append_left (by omega),
        List.getElem?_take, if_pos hcase]
    · rw [if_neg hcase, List.getElem?_append_right (by omega), htlen,
        List.getElem?_map, List.getElem?_take, if_pos (by omega)]

/-- Witness for the amended C7 with draws `[1, 0]`, batch size 3, 5
timesteps. -/
theorem loss_timesteps_shape_witness :
    (loss_timesteps [1, 0] 3 5).length = 3 ∧
    (∀ x ∈ loss_timesteps [1, 0] 3 5, x < 5) ∧
    (∀ j : ℕ, j < 3 →
      (loss_timesteps [1, 0] 3 5)[j]? =
        if j < 3 / 2 + 1 then [1, 0][j]?
        else ([1, 0][j - (3 / 2 + 1)]?).map (fun s => 5 - s - 1)) :=
  loss_timesteps_shape [1, 0] 3 5 (by decide) (by decide) (by decide)

/-- Embedding of `extract` (utils.py lines 25-37): gather `input` at the
timestep indices `t`; the source's reshape only arranges broadcasting,
realised below by scalar-times-vector operations. -/
noncomputable def extract (input : List ℝ) (t : List ℕ) : List ℝ :=
  t.map (fun ti => input.getD ti 0)

/-- The `Diffusion` field `alphas` as a real list. -/
noncomputable def alphasR (d : Diffusion) : List ℝ :=
  d.alphas.map (fun (q : ℚ) => (q : ℝ))

/-- The `Diffusion` field `betas` as a real list. -/
noncomputable def betasR (d : Diffusion) : List ℝ :=
  d.betas.map (fun (q : ℚ) => (q : ℝ))

/-- The schedule scalar `alphas[t]`. -/
noncomputable def alphaAt (d : Diffusion) (t : ℕ) : ℝ :=
  ((d.alphas.getD t 0 : ℚ) : ℝ)

/-- The schedule scalar `betas[t]`. -/
noncomputable def betaAt (d : Diffusion) (t : ℕ) : ℝ :=
  ((d.betas.getD t 0 : ℚ) : ℝ)

/-- The schedule scalar `alphas_prod[t]`. -/
noncomputable def alphaBarAt (d : Diffusion) (t : ℕ) : ℝ :=
  ((d.alphas_prod.getD t 0 : ℚ) : ℝ)

/-- Embedding of `p_sample` (utils.py lines 62-75), elementwise over the
row: `eps_factor = (1 - extract(alphas,t,x)) / extract(omabs,t,x)`,
`mean = (1/extract(alphas,t,x).sqrt()) * (x - eps_factor * eps_theta)`,
`sample = mean + extract(betas,t,x).sqrt() * z`.  The model's prediction
`eps_theta = model(x, t)` and the fresh draw `z = torch.randn_like(x)`
are explicit inputs. -/
noncomputable def p_sample (model : List ℝ → ℕ → List ℝ) (x : List ℝ)
    (t : ℕ) (alphas betas omabs : List ℝ) (z : List ℝ) : List ℝ :=
  let eps_factor := (1 - (extract alphas [t]).getD 0 0) /
    (extract omabs [t]).getD 0 0
  let eps_theta := model x t
  let mean := List.zipWith
    (fun xi ei => (1 / Real.sqrt ((extract alphas [t]).getD 0 0)) *
      (xi - eps_factor * ei)) x eps_theta
  List.zipWith
    (fun mi zi => mi + Real.sqrt ((extract betas [t]).getD 0 0) * zi) mean z

/-- Embedding of `p_tabular_sample` (utils.py lines 333-346): identical to
`p_sample` except the network is queried at `(x, e, t, feature_indices)`
and its first output is the noise prediction. -/
noncomputable def p_tabular_sample
    (model : List ℝ → List ℝ → ℕ → List (ℕ × ℕ) → List ℝ × List ℝ)
    (x e : List ℝ) (t : ℕ) (feature_indices : List (ℕ × ℕ))
    (alphas betas omabs : List ℝ) (z : List ℝ) : List ℝ :=
  let eps_factor := (1 - (extract alphas [t]).getD 0 0) /
    (extract omabs [t]).getD 0 0
  let eps_theta := (model x e t feature_indices).1
  let mean := List.zipWith
    (fun xi ei => (1 / Real.sqrt ((extract alphas [t]).getD 0 0)) *
      (xi - eps_factor * ei)) x eps_theta
  List.zipWith
    (fun mi zi => mi + Real.sqrt ((extract betas [t]).getD 0 0) * zi) mean z

/-- Gathering a mapped list below its length applies the function to the
gathered element. -/
theorem getD_map_of_lt {β γ : Type*} (f : β → γ) (l : List β) (n : ℕ)
    (h : n < l.length) (d : β) (d' : γ) :
    (l.map f).getD n d' = f (l.getD n d) := by
  rw [List.getD_eq_getElem (l.map f) d' (by simpa using h),
    List.getD_eq_getElem l d h, List.getElem_map]

/-- Casting ℚ entries to ℝ commutes with `getD` at default 0. -/
theorem getD_map_rat_cast (l : List ℚ) (n : ℕ) :
    (l.map (fun (q : ℚ) => (q : ℝ))).getD n 0 = ((l.getD n 0 : ℚ) : ℝ) := by
  rw [List.getD_eq_getElem?_getD, List.getD_eq_getElem?_getD,
    List.getElem?_map]
  cases l[n]? <;> simp

/-- `cumprod` preserves length. -/
theorem cumprod_length {α : Type*} [LinearOrderedField α] (l : List α) :
    (cumprod l).length = l.length := by
  induction l with
  | nil => rfl
  | cons a l ih => simp [cumprod, ih]

/-- The cumulative alpha product has one entry per timestep. -/
theorem mkDiffusion_alphas_prod_length (T : ℕ) :
    (mkDiffusion T).alphas_prod.length = T := by
  show (cumprod ((linspace (1 / 100000 : ℚ) (1 / 200) T).map
    (fun b => 1 - b))).length = T
  rw [cumprod_length, List.length_map, linspace_length]

/-- Evaluation of the shared sampling combination at one coordinate. -/
theorem zipWith_sample_eval (c1 c2 c3 : ℝ) (x eps z : List ℝ) (j : ℕ)
    (hx : j < x.length) (he : j < eps.length) (hz : j < z.length) :
    (List.zipWith (fun mi zi => mi + c3 * zi)
      (List.zipWith (fun xi ei => c1 * (xi - c2 * ei)) x eps) z)[j]? =
      some (c1 * (x.getD j 0 - c2 * eps.getD j 0) + c3 * z.getD j 0) := by
  have hm : j < (List.zipWith (fun xi ei => c1 * (xi - c2 * ei)) x eps).length := by
    rw [List.length_zipWith]
    omega
  rw [List.getElem?_zipWith, List.getElem?_eq_getElem hm,
    List.getElem?_eq_getElem hz, List.getElem_zipWith,
    List.getD_eq_getElem x 0 hx, List.getD_eq_getElem eps 0 he,
    List.getD_eq_getElem z 0 hz]

/-- C5: one reverse transition of `p_sample` and of `p_tabular_sample`
computes, coordinate by coordinate, `mean + sigma_t * z` with
`eps_factor = (1 - alpha_t) / sqrt(1 - alpha_bar_t)` (the passed
`one_minus_alphas_bar_sqrt` tensor is `sqrt(1 - alphas_prod)`),
`mean = (x - eps_factor * eps_theta) / sqrt(alpha_t)` and
`sigma_t = sqrt(beta_t)`, where `eps_theta` is the network prediction at
`(x, t)` (tabular: the first output at `(x, e, t, feature_indices)`) and
`z` is the fresh standard-normal draw. -/
theorem p_sample_formula (T : ℕ) (model : List ℝ → ℕ → List ℝ)
    (tmodel : List ℝ → List ℝ → ℕ → List (ℕ × ℕ) → List ℝ × List ℝ)
    (x e z : List ℝ) (fi : List (ℕ × ℕ)) (t j : ℕ)
    (ht : t < T) (hx : j < x.length) (hm : j < (model x t).length)
    (htm : j < ((tmodel x e t fi).1).length) (hz : j < z.length) :
    (p_sample model x t (alphasR (mkDiffusion T)) (betasR (mkDiffusion T))
        (one_minus_alphas_bar_sqrt (mkDiffusion T)) z)[j]? =
      some ((x.getD j 0 -
          ((1 - alphaAt (mkDiffusion T) t) /
            Real.sqrt (1 - alphaBarAt (mkDiffusion T) t)) *
          (model x t).getD j 0) / Real.sqrt (alphaAt (mkDiffusion T) t) +
        Real.sqrt (betaAt (mkDiffusion T) t) * z.getD j 0) ∧
    (p_tabular_sample tmodel x e t fi (alphasR (mkDiffusion T))
        (betasR (mkDiffusion T)) (one_minus_alphas_bar_sqrt (mkDiffusion T))
        z)[j]? =
      some ((x.getD j 0 -
          ((1 - alphaAt (mkDiffusion T) t) /
            Real.sqrt (1 - alphaBarAt (mkDiffusion T) t)) *
          ((tmodel x e t fi).1).getD j 0) /
          Real.sqrt (alphaAt (mkDiffusion T) t) +
        Real.sqrt (betaAt (mkDiffusion T) t) * z.getD j 0) := by
  have halpha : (extract (alphasR (mkDiffusion T)) [t]).getD 0 0 =
      alphaAt (mkDiffusion T) t := by
    show (alphasR (mkDiffusion T)).getD t 0 = _
    exact getD_map_rat_cast _ _
  have hbeta : (extract (betasR (mkDiffusion T)) [t]).getD 0 0 =
      betaAt (mkDiffusion T) t := by
    show (betasR (mkDiffusion T)).getD t 0 = _
    exact getD_map_rat_cast _ _
  have homabs : (extract (one_minus_alphas_bar_sqrt (mkDiffusion T)) [t]).getD
      0 0 = Real.sqrt (1 - alphaBarAt (mkDiffusion T) t) := by
    show (one_minus_alphas_bar_sqrt (mkDiffusion T)).getD t 0 = _
    rw [one_minus_alphas_bar_sqrt,
      getD_map_of_lt _ _ t (by rw [mkDiffusion_alphas_prod_length]; exact ht) 0]
    rfl
  constructor
  · rw [p_sample]
    simp only [halpha, hbeta, homabs]
    rw [zipWith_sample_eval _ _ _ x (model x t) z j hx hm hz]
    refine congrArg some ?_
    ring
  · rw [p_tabular_sample]
    simp only [halpha, hbeta, homabs]
    rw [zipWith_sample_eval _ _ _ x ((tmodel x e t fi).1) z j hx htm hz]
    refine congrArg some ?_
    ring

/-- Witness for C5 at `T = 1`, `t = 0`, `j = 0`, a constant network and
concrete one-coordinate tensors. -/
theorem p_sample_formula_witness :
    (p_sample (fun _ _ => [2]) [3] 0 (alphasR (mkDiffusion 1))
        (betasR (mkDiffusion 1)) (one_minus_alphas_bar_sqrt (mkDiffusion 1))
        [5])[0]? =
      some ((([3] : List ℝ).getD 0 0 -
          ((1 - alphaAt (mkDiffusion 1) 0) /
            Real.sqrt (1 - alphaBarAt (mkDiffusion 1) 0)) *
          (((fun (_ : List ℝ) (_ : ℕ) => ([2] : List ℝ)) [3] 0).getD 0 0)) /
          Real.sqrt (alphaAt (mkDiffusion 1) 0) +
        Real.sqrt (betaAt (mkDiffusion 1) 0) * (([5] : List ℝ).getD 0 0)) ∧
    (p_tabular_sample (fun _ _ _ _ => ([2], [7])) [3] [4] 0 []
        (alphasR (mkDiffusion 1)) (betasR (mkDiffusion 1))
        (one_minus_alphas_bar_sqrt (mkDiffusion 1)) [5])[0]? =
      some ((([3] : List ℝ).getD 0 0 -
          ((1 - alphaAt (mkDiffusion 1) 0) /
            Real.sqrt (1 - alphaBarAt (mkDiffusion 1) 0)) *
          ((((fun (_ _ : List ℝ) (_ : ℕ) (_ : List (ℕ × ℕ)) =>
              (([2], [7]) : List ℝ × List ℝ)) [3] [4] 0 []).1).getD 0 0)) /
          Real.sqrt (alphaAt (mkDiffusion 1) 0) +
        Real.sqrt (betaAt (mkDiffusion 1) 0) * (([5] : List ℝ).getD 0 0)) :=
  p_sample_formula 1 (fun _ _ => [2]) (fun _ _ _ _ => ([2], [7])) [3] [4] [5]
    [] 0 0 (by norm_num) (by norm_num) (by norm_num) (by norm_num)
    (by norm_num)

/-- The trajectory accumulation shared by both sampler loops: starting from
`cur_x`, apply the transition at timesteps `n-1, n-2, ..., 0` (the order of
`reversed(range(n_steps))`), keeping every intermediate state. -/
def sample_trajectory {σ : Type*} (step : ℕ → σ → σ) (x : σ) : ℕ → List σ
  | 0 => [x]
  | n + 1 => x :: sample_trajectory step (step n x) n

/-- Embedding of `p_sample_loop` (utils.py lines 78-85): `x_seq` starts at
the pure-noise state `init = torch.randn(shape)` and appends
`p_sample(model, cur_x, i, ...)` for `i in reversed(range(n_steps))`; the
per-iteration gaussian draws come from the stream `zs`. -/
noncomputable def p_sample_loop (model : List ℝ → ℕ → List ℝ)
    (init : List ℝ) (n_steps : ℕ) (alphas betas omabs : List ℝ)
    (zs : ℕ → List ℝ) : List (List ℝ) :=
  sample_trajectory
    (fun i cur => p_sample model cur i alphas betas omabs (zs i)) init n_steps

/-- Embedding of `p_tabular_sample_loop` (utils.py lines 349-357): the same
loop through `p_tabular_sample`, returning only the final state
`x_seq[-1]`. -/
noncomputable def p_tabular_sample_loop
    (model : List ℝ → List ℝ → ℕ → List (ℕ × ℕ) → List ℝ × List ℝ)
    (e init : List ℝ) (feature_indices : List (ℕ × ℕ)) (n_steps : ℕ)
    (alphas betas omabs : List ℝ) (zs : ℕ → List ℝ) : List ℝ :=
  (sample_trajectory
    (fun i cur => p_tabular_sample model cur e i feature_indices alphas betas
      omabs (zs i)) init n_steps).getLastD init

/-- A trajectory over `n` steps has `n + 1` states. -/
theorem sample_trajectory_length {σ : Type*} (step : ℕ → σ → σ) (x : σ)
    (n : ℕ) : (sample_trajectory step x n).length = n + 1 := by
  induction n generalizing x with
  | zero => rfl
  | succ n ih => simp [sample_trajectory, ih]

/-- A trajectory starts at its initial state. -/
theorem sample_trajectory_head {σ : Type*} (step : ℕ → σ → σ) (x : σ)
    (n : ℕ) : (sample_trajectory step x n)[0]? = some x := by
  cases n <;> simp [sample_trajectory]

/-- Consecutive trajectory states are related by the transition at the
strictly decreasing timestep `n - 1 - j`. -/
theorem sample_trajectory_step {σ : Type*} (step : ℕ → σ → σ) (x : σ)
    (n : ℕ) : ∀ j : ℕ, j < n →
    (sample_trajectory step x n)[j + 1]? =
      ((sample_trajectory step x n)[j]?).map (fun cur => step (n - 1 - j) cur) := by
  induction n generalizing x with
  | zero => intro j hj; omega
  | succ n ih =>
    intro j hj
    cases j with
    | zero =>
      show (x :: sample_trajectory step (step n x) n)[1]? =
        ((x :: sample_trajectory step (step n x) n)[0]?).map
          (fun cur => step (n + 1 - 1 - 0) cur)
      rw [List.getElem?_cons_succ, sample_trajectory_head]
      simp
    | succ j =>
      have hj' : j < n := by omega
      have harith : n + 1 - 1 - (j + 1) = n - 1 - j := by omega
      show (x :: sample_trajectory step (step n x) n)[j + 2]? =
        ((x :: sample_trajectory step (step n x) n)[j + 1]?).map
          (fun cur => step (n + 1 - 1 - (j + 1)) cur)
      rw [List.getElem?_cons_succ, List.getElem?_cons_succ, harith]
      exact ih (step n x) j hj'

/-- C6: for every step count `T > 0`, `p_sample_loop` returns a trajectory
of length `T + 1` whose index 0 is the initial pure-noise sample and whose
successive entries apply `p_sample` at the timesteps `T-1, T-2, ..., 0` in
strictly decreasing order — exactly `T` transition iterations, index `T`
being the final denoised sample. -/
theorem p_sample_loop_trajectory (model : List ℝ → ℕ → List ℝ)
    (init : List ℝ) (T : ℕ) (alphas betas omabs : List ℝ) (zs : ℕ → List ℝ)
    (_hT : 0 < T) :
    (p_sample_loop model init T alphas betas omabs zs).length = T + 1 ∧
    (p_sample_loop model init T alphas betas omabs zs)[0]? = some init ∧
    (∀ j : ℕ, j < T →
      (p_sample_loop model init T alphas betas omabs zs)[j + 1]? =
        ((p_sample_loop model init T alphas betas omabs zs)[j]?).map
          (fun cur => p_sample model cur (T - 1 - j) alphas betas omabs
            (zs (T - 1 - j)))) :=
  ⟨sample_trajectory_length _ init T, sample_trajectory_head _ init T,
    sample_trajectory_step _ init T⟩

/-- Witness for C6 at `T = 2` with a constant network, constant draws and
concrete schedule lists. -/
theorem p_sample_loop_trajectory_witness :
    (p_sample_loop (fun _ _ => [0]) [1] 2 [1, 1] [1, 1] [1, 1]
      (fun _ => [0])).length = 2 + 1 ∧
    (p_sample_loop (fun _ _ => [0]) [1] 2 [1, 1] [1, 1] [1, 1]
      (fun _ => [0]))[0]? = some [1] ∧
    (∀ j : ℕ, j < 2 →
      (p_sample_loop (fun _ _ => [0]) [1] 2 [1, 1] [1, 1] [1, 1]
        (fun _ => [0]))[j + 1]? =
        ((p_sample_loop (fun _ _ => [0]) [1] 2 [1, 1] [1, 1] [1, 1]
          (fun _ => [0]))[j]?).map
          (fun cur => p_sample (fun _ _ => [0]) cur (2 - 1 - j) [1, 1] [1, 1]
            [1, 1] ((fun (_ : ℕ) => ([0] : List ℝ)) (2 - 1 - j)))) := by
  have h := p_sample_loop_trajectory (fun _ _ => [0]) [1] 2 [1, 1] [1, 1]
    [1, 1] (fun _ => [0]) (by norm_num)
  exact h

/-- One feature's step inside `to_one_hot` (utils.py lines 306-314):
`torch.nn.functional.one_hot(data[:, i].long(), end - start)` on one row,
which raises when the value is out of range for the feature's width —
modelled by `none`. -/
def encode_feature {α : Type*} [LinearOrderedField α] (row : List ℕ)
    (i : ℕ) (p : ℕ × ℕ) : Option (List α) :=
  match row[i]? with
  | none => none
  | some v => if v < p.2 - p.1 then some (one_hot v (p.2 - p.1)) else none

/-- Sequencing of optional per-feature encodings. -/
def option_all {β : Type*} : List (Option β) → Option (List β)
  | [] => some []
  | o :: rest => o.bind (fun b => (option_all rest).map (fun bs => b :: bs))

/-- One row of `to_one_hot`: encode column `i` with the width `end - start`
of the `i`-th range and concatenate (torch.cat along dimension 1). -/
def encode_row {α : Type*} [LinearOrderedField α] (row : List ℕ)
    (feature_indices : List (ℕ × ℕ)) : Option (List α) :=
  (option_all (feature_indices.enum.map
    (fun ip => encode_feature row ip.1 ip.2))).map List.flatten

/-- Embedding of `to_one_hot` (utils.py lines 306-314).  The ranges'
positions are never read — only their widths `end - start` — and no
overlap or coverage check of the ranges exists anywhere in the source. -/
def to_one_hot {α : Type*} [LinearOrderedField α] (data : List (List ℕ))
    (feature_indices : List (ℕ × ℕ)) : Option (List (List α)) :=
  option_all (data.map (fun row => encode_row row feature_indices))

/-- Sequencing succeeds when every component is present. -/
theorem option_all_isSome {β : Type*} {l : List (Option β)}
    (h : ∀ o ∈ l, o.isSome) : (option_all l).isSome := by
  induction l with
  | nil => rfl
  | cons o rest ih =>
    obtain ⟨b, rfl⟩ := Option.isSome_iff_exists.mp (h o (by simp))
    have hrest := ih (fun x hx => h x (by simp [hx]))
    obtain ⟨bs, hbs⟩ := Option.isSome_iff_exists.mp hrest
    simp [option_all, hbs]

/-- C9 counterexample: with the overlapping (hence non-covering) ranges
`(0,2)` and `(1,3)`, `to_one_hot` does not fail — it happily encodes the
batch `[[0, 1]]`, reading only the widths `2` and `2`, and returns the
concatenated (misencoded) tensor `[[1,0,0,1]]` instead of raising a
descriptive error. -/
theorem to_one_hot_overlapping_ranges_no_error :
    to_one_hot (α := ℚ) [[0, 1]] [(0, 2), (1, 3)] = some [[1, 0, 0, 1]] :=
  rfl

/-- C9 (amended): `to_one_hot` performs no validation of the feature
ranges: it one-hot encodes column `i` with width `end_i - start_i` and
concatenates, succeeding for every batch whose values fit the widths —
overlapping or non-covering ranges included; the only failure is an
out-of-range class value (raised by `torch.nn.functional.one_hot`), never
a range-consistency error. -/
theorem to_one_hot_isSome_of_values_fit {α : Type*} [LinearOrderedField α]
    (data : List (List ℕ)) (fi : List (ℕ × ℕ))
    (hv : ∀ row ∈ data, ∀ ip ∈ fi.enum,
      ∃ v, row[ip.1]? = some v ∧ v < ip.2.2 - ip.2.1) :
    (to_one_hot (α := α) data fi).isSome := by
  refine option_all_isSome (fun o ho => ?_)
  obtain ⟨row, hrow, rfl⟩ := List.mem_map.mp ho
  rw [encode_row, Option.isSome_map']
  refine option_all_isSome (fun oo hoo => ?_)
  obtain ⟨ip, hip, rfl⟩ := List.mem_map.mp hoo
  obtain ⟨v, hv1, hv2⟩ := hv row hrow ip hip
  simp [encode_feature, hv1, hv2]

/-- Witness for the amended C9 at the overlapping ranges `(0,2)`, `(1,3)`
and the batch `[[0, 1]]` whose values fit the widths. -/
theorem to_one_hot_isSome_of_values_fit_witness :
    (to_one_hot (α := ℚ) [[0, 1]] [(0, 2), (1, 3)]).isSome :=
  to_one_hot_isSome_of_values_fit [[0, 1]] [(0, 2), (1, 3)] (by decide)
